import Mathlib

/-!
Shallow embedding of the analytics pipeline of this repository
(etl_pipeline/etl_prices.py and api/app/main.py) and proofs about it.

Numeric values are embedded as rationals.  Where the Python/numpy code
relies on IEEE-754 special values (NaN from 0/0, infinity from x/0), the
embedding makes those values explicit through the type `FVal` below, so
that the pandas pipeline in `compute_rsi` can be transcribed operation by
operation.  Signed zeros are collapsed to +0; in this pipeline a division
by -0 instead of +0 only flips an infinity sign that the final expression
100 - 100/(1 + rs) maps to the same answer, so no observable value changes.
-/

/-- An IEEE-754-style scalar: finite rational, infinities, or NaN. -/
inductive FVal where
  | nan : FVal
  | pinf : FVal
  | minf : FVal
  | fin : ℚ → FVal
deriving DecidableEq, Repr

/-- IEEE-style addition on `FVal`. -/
def FVal.add : FVal → FVal → FVal
  | nan, _ => nan
  | _, nan => nan
  | pinf, minf => nan
  | minf, pinf => nan
  | pinf, _ => pinf
  | _, pinf => pinf
  | minf, _ => minf
  | _, minf => minf
  | fin a, fin b => fin (a + b)

/-- IEEE-style subtraction on `FVal`. -/
def FVal.sub : FVal → FVal → FVal
  | nan, _ => nan
  | _, nan => nan
  | pinf, pinf => nan
  | minf, minf => nan
  | pinf, _ => pinf
  | _, minf => pinf
  | minf, _ => minf
  | _, pinf => minf
  | fin a, fin b => fin (a - b)

/-- IEEE-style division on `FVal` (zeros treated as +0). -/
def FVal.div : FVal → FVal → FVal
  | nan, _ => nan
  | _, nan => nan
  | pinf, pinf => nan
  | pinf, minf => nan
  | minf, pinf => nan
  | minf, minf => nan
  | pinf, fin b => if 0 ≤ b then pinf else minf
  | minf, fin b => if 0 ≤ b then minf else pinf
  | fin _, pinf => fin 0
  | fin _, minf => fin 0
  | fin a, fin b =>
      if b = 0 then (if a = 0 then nan else if 0 < a then pinf else minf)
      else fin (a / b)

/-- Whether a value is finite (neither NaN nor infinite). -/
def FVal.isFin : FVal → Bool
  | fin _ => true
  | _ => false

/-- The finite part of a value (0 for NaN and infinities). -/
def FVal.finPart : FVal → ℚ
  | fin q => q
  | _ => 0

/-- `series.diff()`: positional first difference; the first entry is NaN. -/
def seriesDiff (xs : List ℚ) : List FVal :=
  (List.range xs.length).map (fun i =>
    if i = 0 then FVal.nan else FVal.fin (xs.getD i 0 - xs.getD (i - 1) 0))

/-- `delta.where(delta > 0, 0.0)`: keep positive deltas, else 0.
NaN compares false, so the leading NaN of `diff` becomes 0. -/
def gainOf : FVal → FVal
  | FVal.fin d => FVal.fin (if 0 < d then d else 0)
  | FVal.pinf => FVal.pinf
  | _ => FVal.fin 0

/-- `-delta.where(delta < 0, 0.0)`: negated negative deltas, else 0.
NaN compares false, so the leading NaN of `diff` becomes 0. -/
def lossOf : FVal → FVal
  | FVal.fin d => FVal.fin (if d < 0 then -d else 0)
  | FVal.minf => FVal.pinf
  | _ => FVal.fin 0

/-- `xs.rolling(window=w, min_periods=w).mean()`: NaN until the window is
full; the mean is taken over the trailing `w` entries and is NaN whenever
any of them is NaN (min_periods counts non-NaN observations). -/
def rollingMeanF (w : Nat) (xs : List FVal) : List FVal :=
  (List.range xs.length).map (fun i =>
    if w ≤ i + 1 then
      let window := (xs.take (i + 1)).drop (i + 1 - w)
      if window.all FVal.isFin then
        FVal.fin ((window.map FVal.finPart).sum / (w : ℚ))
      else FVal.nan
    else FVal.nan)

/-- `compute_rsi` from etl_pipeline/etl_prices.py, transcribed stage by
stage: diff, where-gain, where-loss, rolling means, rs, 100 - 100/(1+rs). -/
def compute_rsi (series : List ℚ) (period : Nat) : List FVal :=
  let delta := seriesDiff series
  let gain := delta.map gainOf
  let loss := delta.map lossOf
  let avg_gain := rollingMeanF period gain
  let avg_loss := rollingMeanF period loss
  let rs := List.zipWith FVal.div avg_gain avg_loss
  rs.map (fun r => FVal.sub (FVal.fin 100) (FVal.div (FVal.fin 100) (FVal.add (FVal.fin 1) r)))

/-- `hist_df["Close"].rolling(window=w, min_periods=w).mean()` on a series
with no NaN entries (closes loaded from the store are non-null): defined
exactly when `w` observations end at the position. -/
def rolling_mean (w : Nat) (xs : List ℚ) : List (Option ℚ) :=
  (List.range xs.length).map (fun i =>
    if w ≤ i + 1 then some (((xs.take (i + 1)).drop (i + 1 - w)).sum / (w : ℚ))
    else none)

/-- Spec-side: the price difference ending at position `i` (for `1 ≤ i`). -/
def deltaAt (c : List ℚ) (i : Nat) : ℚ := c.getD i 0 - c.getD (i - 1) 0

/-- Spec-side: gain at position `i` is `max (Δclose) 0`; position 0 has no
difference and contributes 0 (the convention the code effectively uses). -/
def gainAt (c : List ℚ) (i : Nat) : ℚ := if i = 0 then 0 else max (deltaAt c i) 0

/-- Spec-side: loss at position `i` is `max (-Δclose) 0`; position 0 has no
difference and contributes 0. -/
def lossAt (c : List ℚ) (i : Nat) : ℚ := if i = 0 then 0 else max (-(deltaAt c i)) 0

/-- Spec-side: `p`-period simple rolling mean of the gains ending at `i`. -/
def avgGain (p : Nat) (c : List ℚ) (i : Nat) : ℚ :=
  ((((List.range (i + 1)).drop (i + 1 - p)).map (gainAt c)).sum) / (p : ℚ)

/-- Spec-side: `p`-period simple rolling mean of the losses ending at `i`. -/
def avgLoss (p : Nat) (c : List ℚ) (i : Nat) : ℚ :=
  ((((List.range (i + 1)).drop (i + 1 - p)).map (lossAt c)).sum) / (p : ℚ)

/-! ## Symbol Resolver (tsx_dash_fallback) -/

/-- Symbols are modeled as lists of characters. -/
abbrev TSym := List Char

/-- The literal suffix ".TO". -/
def dotTO : TSym := ['.', 'T', 'O']

/-- `tsx_dash_fallback` from etl_pipeline/etl_prices.py.
`yf_symbol.endswith(".TO")` is transcribed as "the last three characters
are `.TO`"; `base = yf_symbol[:-3]`; `"." in base`; `base.replace(".", "-")`
replaces every dot by a dash. -/
def tsx_dash_fallback (yf_symbol : TSym) : Option TSym :=
  if yf_symbol.drop (yf_symbol.length - 3) ≠ dotTO then none
  else
    let base := yf_symbol.take (yf_symbol.length - 3)
    if ¬ ('.') ∈ base then none
    else
      let alt_base := base.map (fun c => if c = '.' then '-' else c)
      let alt := alt_base ++ dotTO
      if alt ≠ yf_symbol then some alt else none

/-! ## Time-Series Fetcher (_coerce_download_to_ohlcv, download_one_symbol) -/

/-- A provider response frame after column flattening: whether the Close
and Volume columns are present, and the rows as (Close?, Volume?) pairs
where `none` stands for NaN.  (The MultiIndex branch of the source merely
selects one ticker group before this shape is reached; it is modeled as
already applied.) -/
structure RawFrame where
  hasClose : Bool
  hasVolume : Bool
  rows : List (Option ℚ × Option ℚ)
deriving DecidableEq, Repr

/-- The ValueError messages `_coerce_download_to_ohlcv` can raise. -/
inductive FetchErr where
  | emptyDataFrame : FetchErr
  | missingCloseColumn : FetchErr
  | noCloseRowsAfterDropna : FetchErr
deriving DecidableEq, Repr

/-- `_coerce_download_to_ohlcv` from etl_pipeline/etl_prices.py: raise on a
missing/empty frame, raise when Close is absent, drop NaN-Close rows,
raise if nothing remains, and null out Volume when the column is absent. -/
def coerce_download_to_ohlcv (df : Option RawFrame) : Except FetchErr (List (ℚ × Option ℚ)) :=
  match df with
  | none => Except.error FetchErr.emptyDataFrame
  | some f =>
    if f.rows.isEmpty then Except.error FetchErr.emptyDataFrame
    else if ¬ f.hasClose then Except.error FetchErr.missingCloseColumn
    else
      let out := f.rows.filterMap (fun r =>
        match r.1 with
        | some c => some (c, if f.hasVolume then r.2 else none)
        | none => none)
      if out.isEmpty then Except.error FetchErr.noCloseRowsAfterDropna
      else Except.ok out

/-- `download_one_symbol`: the upstream provider is modeled as a function
from symbol to raw response (`none` = empty download), normalized through
`coerce_download_to_ohlcv`. -/
def download_one_symbol (provider : TSym → Option RawFrame) (yf_symbol : TSym) :
    Except FetchErr (List (ℚ × Option ℚ)) :=
  coerce_download_to_ohlcv (provider yf_symbol)

/-! ## Indicator Engine batch loop (main) -/

/-- Store writes performed for one ticker, in program order. -/
inductive Ev where
  | mapWrite : TSym → Ev
  | priceUpsert : List (ℚ × Option ℚ) → Ev
  | metricsUpsert : Ev
deriving DecidableEq, Repr

/-- Whether an event is a ticker_map write. -/
def Ev.isMapWrite : Ev → Bool
  | mapWrite _ => true
  | _ => false

/-- The per-ticker body of `main` in etl_pipeline/etl_prices.py: try the
primary symbol; on failure try `tsx_dash_fallback` (re-raising when no
alternate applies); on alternate success write the ticker_map first, then
upsert prices and metrics.  Store writes themselves are modeled as always
succeeding, so the only failure source is the download.  Returns
(succeeded?, committed store writes in order). -/
def processTicker (provider : TSym → Option RawFrame) (yf_sym : TSym) : Bool × List Ev :=
  match download_one_symbol provider yf_sym with
  | Except.ok df => (true, [Ev.priceUpsert df, Ev.metricsUpsert])
  | Except.error _ =>
    match tsx_dash_fallback yf_sym with
    | none => (false, [])
    | some alt =>
      match download_one_symbol provider alt with
      | Except.ok df => (true, [Ev.mapWrite alt, Ev.priceUpsert df, Ev.metricsUpsert])
      | Except.error _ => (false, [])

/-- The batch loop of `main`: every ticker is processed; exceptions are
caught per ticker and tallied, never propagated.  Returns
(success count, failed tickers in order). -/
def runMain (provider : TSym → Option RawFrame) (tickers : List TSym) : Nat × List TSym :=
  tickers.foldl
    (fun acc s =>
      if (processTicker provider s).1 then (acc.1 + 1, acc.2) else (acc.1, acc.2 ++ [s]))
    (0, [])

/-! ## Ranking config validation (PUT /api/ranking-config) -/

/-- Outcome of `update_ranking_config` validation in api/app/main.py:
which HTTPException is raised, or acceptance. -/
inductive ConfigResult where
  | rejectedEmpty : ConfigResult
  | rejectedSum : ℚ → ConfigResult
  | rejectedMissingKeys : List String → ConfigResult
  | accepted : ConfigResult
deriving DecidableEq, Repr

/-- The required factor keys, in the order the source lists them. -/
def requiredFactorKeys : List String := ["trend", "rsi", "value", "size", "yield"]

/-- The validation sequence of `update_ranking_config`: reject an empty
weights mapping; reject when the sum s satisfies s <= 0.99 or s >= 1.01;
reject when a required key is missing; otherwise accept.  The weights
mapping is modeled as an association list. -/
def update_ranking_config (weights : List (String × ℚ)) : ConfigResult :=
  if weights.isEmpty then ConfigResult.rejectedEmpty
  else
    let s := (weights.map Prod.snd).sum
    if s ≤ 99 / 100 ∨ 101 / 100 ≤ s then ConfigResult.rejectedSum s
    else
      let missing := requiredFactorKeys.filter (fun k => ¬ k ∈ weights.map Prod.fst)
      if missing ≠ [] then ConfigResult.rejectedMissingKeys missing
      else ConfigResult.accepted

/-! ## Rankings query (GET /api/rankings) -/

/-- Per-ticker factor sub-scores as read from the warehouse view; a `none`
is a SQL NULL. -/
structure FactorScores where
  trend_score : Option ℚ
  rsi_score : Option ℚ
  value_score : Option ℚ
  size_score : Option ℚ
  yield_score : Option ℚ
deriving DecidableEq, Repr

/-- The five weights the query binds as $1..$5. -/
structure RankWeights where
  w_trend : ℚ
  w_rsi : ℚ
  w_value : ℚ
  w_size : ℚ
  w_yield : ℚ
deriving DecidableEq, Repr

/-- PostgreSQL ROUND(numeric, 4): round half away from zero at the fourth
decimal. -/
def roundAwayFromZero (x : ℚ) : ℤ := if 0 ≤ x then ⌊x + 1 / 2⌋ else -⌊-x + 1 / 2⌋

/-- ROUND(·, 4) on rationals. -/
def pgRound4 (x : ℚ) : ℚ := (roundAwayFromZero (x * 10000) : ℚ) / 10000

/-- The SELECT expression computing `score`: NULL when any sub-score is
NULL, else the rounded weighted sum. -/
def rowScore (w : RankWeights) (r : FactorScores) : Option ℚ :=
  match r.trend_score, r.rsi_score, r.value_score, r.size_score, r.yield_score with
  | some t, some rs, some v, some sz, some y =>
      some (pgRound4 (w.w_trend * t + w.w_rsi * rs + w.w_value * v + w.w_size * sz + w.w_yield * y))
  | _, _, _, _, _ => none

/-- ORDER BY score DESC NULLS LAST as a relation on optional scores:
"a may come before b". -/
def scoreDescNullsLast (a b : Option ℚ) : Bool :=
  match a, b with
  | some x, some y => y ≤ x
  | some _, none => true
  | none, some _ => false
  | none, none => true

/-- The rankings query: score each view row, ORDER BY score DESC NULLS
LAST, LIMIT `lim`. -/
def rankings_query (w : RankWeights) (rows : List FactorScores) (lim : Nat) :
    List (FactorScores × Option ℚ) :=
  (List.insertionSort (fun a b => scoreDescNullsLast a.2 b.2 = true)
    (rows.map (fun r => (r, rowScore w r)))).take lim

/-! ## Data-quality percentages and snapshot upsert -/

/-- Round half to even (the rounding Python's `round` uses). -/
def roundHalfEven (x : ℚ) : ℤ :=
  if x - ⌊x⌋ < 1 / 2 then ⌊x⌋
  else if 1 / 2 < x - ⌊x⌋ then ⌊x⌋ + 1
  else if ⌊x⌋ % 2 = 0 then ⌊x⌋ else ⌊x⌋ + 1

/-- Python `round(x, 2)` on rationals. -/
def pythonRound2 (x : ℚ) : ℚ := (roundHalfEven (x * 100) : ℚ) / 100

/-- One coverage percentage of `dq_run` in api/app/main.py:
`round((count / universe * 100.0), 2) if universe else 0.0`. -/
def dq_pct (count univ : Nat) : ℚ :=
  if univ ≠ 0 then pythonRound2 ((count : ℚ) / (univ : ℚ) * 100) else 0

/-- `_upsert_dq_snapshot`: INSERT .. ON CONFLICT (dq_date) DO UPDATE.  The
table is modeled as a list of (dq_date, payload) rows; on conflict every
payload column is replaced by the new values. -/
def upsert_dq_snapshot {α : Type} (tbl : List (Nat × α)) (d : Nat) (row : α) :
    List (Nat × α) :=
  if d ∈ tbl.map Prod.fst then
    tbl.map (fun p => if p.1 = d then (d, row) else p)
  else tbl ++ [(d, row)]

/-! ## Helper lemmas -/

theorem getElem?_range_map {α : Type} (f : Nat → α) (n i : Nat) (h : i < n) :
    ((List.range n).map f)[i]? = some (f i) := by
  rw [List.getElem?_map, List.getElem?_range h]
  rfl

theorem rolling_mean_spec (w : Nat) (c : List ℚ) (i : Nat) (hi : i < c.length) :
    (i + 1 < w → (rolling_mean w c)[i]? = some none) ∧
    (w ≤ i + 1 →
      (rolling_mean w c)[i]? = some (some (((c.take (i + 1)).drop (i + 1 - w)).sum / (w : ℚ))) ∧
      ((c.take (i + 1)).drop (i + 1 - w)).length = w ∧
      (c.take (i + 1)).drop (i + 1 - w) <:+ c.take (i + 1)) := by
  unfold rolling_mean
  rw [getElem?_range_map _ _ _ hi]
  constructor
  · intro h
    rw [if_neg (by omega)]
  · intro h
    refine ⟨by rw [if_pos h], ?_, List.drop_suffix _ _⟩
    rw [List.length_drop, List.length_take]
    omega

theorem length_filter_split {α : Type} (p : α → Bool) (l : List α) :
    (l.filter p).length + (l.filter (fun a => !(p a))).length = l.length := by
  induction l with
  | nil => rfl
  | cons a t ih =>
    by_cases h : p a <;> simp [List.filter_cons, h, ← ih] <;> omega

theorem runMain_go (provider : TSym → Option RawFrame) (tickers : List TSym) (n : Nat)
    (f : List TSym) :
    tickers.foldl
        (fun acc s =>
          if (processTicker provider s).1 then (acc.1 + 1, acc.2) else (acc.1, acc.2 ++ [s]))
        (n, f)
      = (n + (tickers.filter (fun s => (processTicker provider s).1)).length,
         f ++ tickers.filter (fun s => !(processTicker provider s).1)) := by
  induction tickers generalizing n f with
  | nil => simp
  | cons a t ih =>
    simp only [List.foldl_cons, List.filter_cons]
    by_cases h : (processTicker provider a).1
    · rw [if_pos h, ih]
      simp [h]
      omega
    · rw [if_neg h, ih]
      simp [h]

theorem upsert_nodup {α : Type} (tbl : List (Nat × α)) (d : Nat) (r : α)
    (h : (tbl.map Prod.fst).Nodup) :
    ((upsert_dq_snapshot tbl d r).map Prod.fst).Nodup := by
  unfold upsert_dq_snapshot
  by_cases hm : d ∈ tbl.map Prod.fst
  · rw [if_pos hm, List.map_map]
    have heq : tbl.map (Prod.fst ∘ fun p => if p.1 = d then (d, r) else p) = tbl.map Prod.fst := by
      apply List.map_congr_left
      intro p _
      by_cases hp : p.1 = d <;> simp [hp]
    rw [heq]
    exact h
  · rw [if_neg hm, List.map_append]
    simp [List.nodup_append, h, hm]

theorem filter_ne_map_ite {α : Type} (d : Nat) (r : α) :
    ∀ t : List (Nat × α),
      (t.map (fun p => if p.1 = d then (d, r) else p)).filter (fun p => p.1 ≠ d)
        = t.filter (fun p => p.1 ≠ d)
  | [] => rfl
  | a :: t => by
    by_cases ha : a.1 = d
    · simp [List.filter_cons, ha]
      simpa using filter_ne_map_ite d r t
    · simp [List.filter_cons, ha]
      simpa using filter_ne_map_ite d r t

theorem upsert_filter_ne {α : Type} (tbl : List (Nat × α)) (d : Nat) (r : α) :
    (upsert_dq_snapshot tbl d r).filter (fun p => p.1 ≠ d)
      = tbl.filter (fun p => p.1 ≠ d) := by
  unfold upsert_dq_snapshot
  by_cases hm : d ∈ tbl.map Prod.fst
  · rw [if_pos hm]
    exact filter_ne_map_ite d r tbl
  · rw [if_neg hm, List.filter_append]
    simp

theorem filter_eq_nil_of_not_mem_dates {α : Type} (t : List (Nat × α)) (d : Nat) (r : α)
    (hd : d ∉ t.map Prod.fst) :
    (t.map (fun p => if p.1 = d then (d, r) else p)).filter (fun p => p.1 = d) = [] := by
  rw [List.filter_eq_nil_iff]
  intro x hx
  rw [List.mem_map] at hx
  obtain ⟨p, hp, rfl⟩ := hx
  have hne : p.1 ≠ d := fun hpd => hd (List.mem_map.mpr ⟨p, hp, hpd⟩)
  simp [hne]

theorem filter_eq_map_ite {α : Type} (d : Nat) (r : α) :
    ∀ t : List (Nat × α), d ∈ t.map Prod.fst → (t.map Prod.fst).Nodup →
      (t.map (fun p => if p.1 = d then (d, r) else p)).filter (fun p => p.1 = d) = [(d, r)]
  | [] => by
    intro hm _
    simp at hm
  | a :: t => by
    intro hm h
    simp only [List.map_cons, List.nodup_cons] at h
    by_cases ha : a.1 = d
    · have hdn : d ∉ t.map Prod.fst := ha ▸ h.1
      simp [List.filter_cons, ha, filter_eq_nil_of_not_mem_dates t d r hdn]
    · have hm2 : d ∈ t.map Prod.fst := by
        rcases List.mem_map.mp hm with ⟨p, hp, hpe⟩
        rcases List.mem_cons.mp hp with rfl | hpt
        · exact absurd hpe ha
        · exact List.mem_map.mpr ⟨p, hpt, hpe⟩
      simp [List.filter_cons, ha, filter_eq_map_ite d r t hm2 h.2]

theorem upsert_filter_eq {α : Type} (tbl : List (Nat × α)) (d : Nat) (r : α)
    (h : (tbl.map Prod.fst).Nodup) :
    (upsert_dq_snapshot tbl d r).filter (fun p => p.1 = d) = [(d, r)] := by
  unfold upsert_dq_snapshot
  by_cases hm : d ∈ tbl.map Prod.fst
  · rw [if_pos hm]
    exact filter_eq_map_ite d r tbl hm h
  · rw [if_neg hm, List.filter_append]
    have hnil : tbl.filter (fun p => p.1 = d) = [] := by
      rw [List.filter_eq_nil_iff]
      intro p hp hpd
      exact hm (List.mem_map.mpr ⟨p, hp, by simpa using hpd⟩)
    rw [hnil]
    simp

theorem foldl_upsert_spec {α : Type} (runs : List α) (tbl : List (Nat × α)) (d : Nat)
    (hnodup : (tbl.map Prod.fst).Nodup) (hne : runs ≠ []) :
    ((runs.foldl (fun acc r => upsert_dq_snapshot acc d r) tbl).filter
        (fun p => p.1 = d)).map Prod.snd = [runs.getLast hne] ∧
    (runs.foldl (fun acc r => upsert_dq_snapshot acc d r) tbl).filter (fun p => p.1 ≠ d)
        = tbl.filter (fun p => p.1 ≠ d) ∧
    ((runs.foldl (fun acc r => upsert_dq_snapshot acc d r) tbl).map Prod.fst).Nodup := by
  induction runs generalizing tbl with
  | nil => exact absurd rfl hne
  | cons r rest ih =>
    rw [List.foldl_cons]
    by_cases hrest : rest = []
    · subst hrest
      simp only [List.foldl_nil]
      refine ⟨?_, upsert_filter_ne tbl d r, upsert_nodup tbl d r hnodup⟩
      rw [upsert_filter_eq tbl d r hnodup]
      simp
    · have h := ih (upsert_dq_snapshot tbl d r) (upsert_nodup tbl d r hnodup) hrest
      refine ⟨?_, ?_, h.2.2⟩
      · rw [h.1, List.getLast_cons hrest]
      · rw [h.2.1, upsert_filter_ne]

theorem abs_roundHalfEven_sub (x : ℚ) : |(roundHalfEven x : ℚ) - x| ≤ 1 / 2 := by
  have h0 : (⌊x⌋ : ℚ) ≤ x := Int.floor_le x
  have h1 : x < ⌊x⌋ + 1 := Int.lt_floor_add_one x
  unfold roundHalfEven
  split_ifs with hlt hgt hev
  · rw [abs_le]
    constructor <;> linarith
  · push_neg at hlt
    rw [abs_le]
    push_cast
    constructor <;> linarith
  · push_neg at hlt hgt
    rw [abs_le]
    constructor <;> linarith
  · push_neg at hlt hgt
    rw [abs_le]
    push_cast
    constructor <;> linarith

theorem abs_pythonRound2_sub (x : ℚ) : |pythonRound2 x - x| ≤ 1 / 200 := by
  have h := abs_roundHalfEven_sub (x * 100)
  have hx : pythonRound2 x - x = ((roundHalfEven (x * 100) : ℚ) - x * 100) / 100 := by
    unfold pythonRound2
    ring
  rw [hx, abs_div, abs_of_pos (show (0 : ℚ) < 100 by norm_num)]
  linarith

/-! ## Claim theorems -/

/-- Claim C5: for every loaded close-price series, the rolling mean with
window 50 (`ma50`) is null at position `i` unless at least 50 observations
end there, and once 50 are available it equals the simple mean of the last
50 closes (the window is the length-50 suffix of the closes up to `i`);
analogously for window 200 (`ma200`). -/
theorem ma_null_until_window (c : List ℚ) (i : Nat) (hi : i < c.length) :
    ((i + 1 < 50 → (rolling_mean 50 c)[i]? = some none) ∧
     (50 ≤ i + 1 →
       (rolling_mean 50 c)[i]? =
         some (some (((c.take (i + 1)).drop (i + 1 - 50)).sum / ((50 : Nat) : ℚ))) ∧
       ((c.take (i + 1)).drop (i + 1 - 50)).length = 50 ∧
       (c.take (i + 1)).drop (i + 1 - 50) <:+ c.take (i + 1))) ∧
    ((i + 1 < 200 → (rolling_mean 200 c)[i]? = some none) ∧
     (200 ≤ i + 1 →
       (rolling_mean 200 c)[i]? =
         some (some (((c.take (i + 1)).drop (i + 1 - 200)).sum / ((200 : Nat) : ℚ))) ∧
       ((c.take (i + 1)).drop (i + 1 - 200)).length = 200 ∧
       (c.take (i + 1)).drop (i + 1 - 200) <:+ c.take (i + 1))) :=
  ⟨rolling_mean_spec 50 c i hi, rolling_mean_spec 200 c i hi⟩

/-- Witness for C5: with exactly 49 closes the last position is still null;
with a 50th close the value becomes the simple mean of the 50 closes. -/
theorem ma_null_until_window_witness :
    (rolling_mean 50 (List.replicate 49 (2 : ℚ)))[48]? = some none ∧
    (rolling_mean 50 (List.replicate 50 (2 : ℚ)))[49]? = some (some 2) := by
  constructor
  · exact (ma_null_until_window (List.replicate 49 (2 : ℚ)) 48 (by decide)).1.1 (by omega)
  · have h :=
      ((ma_null_until_window (List.replicate 50 (2 : ℚ)) 49 (by decide)).1.2 (by omega)).1
    rw [h]
    norm_num [List.take_replicate, List.sum_replicate]

/-- Claim C7: each data-quality coverage percentage equals the coverage
count divided by the universe size, times 100, rounded to 2 decimals (so
it is within 1/200 of the exact ratio); when the universe is 0 the result
is exactly 0 with no division; 150 of 200 gives 75. -/
theorem dq_pct_spec :
    (∀ count univ : Nat,
        (univ = 0 → dq_pct count univ = 0) ∧
        (univ ≠ 0 →
          dq_pct count univ = pythonRound2 ((count : ℚ) / (univ : ℚ) * 100) ∧
          |dq_pct count univ - (count : ℚ) / (univ : ℚ) * 100| ≤ 1 / 200)) ∧
    dq_pct 150 200 = 75 ∧ dq_pct 150 0 = 0 := by
  refine ⟨?_, by norm_num [dq_pct, pythonRound2, roundHalfEven], by norm_num [dq_pct]⟩
  intro count univ
  constructor
  · intro h
    simp [dq_pct, h]
  · intro h
    have he : dq_pct count univ = pythonRound2 ((count : ℚ) / (univ : ℚ) * 100) := by
      simp [dq_pct, h]
    refine ⟨he, ?_⟩
    rw [he]
    exact abs_pythonRound2_sub _

/-- Witness for C7: the general part of `dq_pct_spec` applied at the
concrete input count=1, univ=3 with its hypothesis discharged. -/
theorem dq_pct_spec_witness :
    dq_pct 1 3 = pythonRound2 ((1 : ℚ) / ((3 : Nat) : ℚ) * 100) := by
  have h := ((dq_pct_spec.1 1 3).2 (by decide)).1
  simpa using h

/-- Claim C8: the data-quality snapshot upsert is keyed on the calendar
date: after any number of same-day runs there is exactly one row for that
date, holding the last run's payload; rows of other dates are untouched;
date keys stay unique; and for a fresh date the upsert appends a new row. -/
theorem dq_upsert_keyed_on_date {α : Type} (tbl : List (Nat × α)) (d : Nat) (runs : List α)
    (hne : runs ≠ []) (hnodup : (tbl.map Prod.fst).Nodup) :
    (((runs.foldl (fun acc r => upsert_dq_snapshot acc d r) tbl).filter
        (fun p => p.1 = d)).map Prod.snd = [runs.getLast hne]) ∧
    ((runs.foldl (fun acc r => upsert_dq_snapshot acc d r) tbl).filter (fun p => p.1 ≠ d)
        = tbl.filter (fun p => p.1 ≠ d)) ∧
    ((runs.foldl (fun acc r => upsert_dq_snapshot acc d r) tbl).map Prod.fst).Nodup ∧
    (∀ r : α, d ∉ tbl.map Prod.fst → upsert_dq_snapshot tbl d r = tbl ++ [(d, r)]) := by
  have h := foldl_upsert_spec runs tbl d hnodup hne
  refine ⟨h.1, h.2.1, h.2.2, ?_⟩
  intro r hd
  unfold upsert_dq_snapshot
  rw [if_neg hd]

/-- Witness for C8: two same-day runs on a two-row table leave exactly one
row for the day, holding the second run's value. -/
theorem dq_upsert_keyed_on_date_witness :
    (([30, 40].foldl (fun acc r => upsert_dq_snapshot acc 2 r) [(1, 10), (2, 20)]).filter
        (fun p => p.1 = 2)).map Prod.snd = [40] := by
  have h := dq_upsert_keyed_on_date [(1, (10 : Nat)), (2, 20)] 2 [30, 40]
      (by decide) (by decide)
  simpa [List.getLast] using h.1

/-- Claim C9: the batch run of the Indicator Engine always completes with
a tally: the success count is the number of tickers whose processing
succeeded, the failure list is exactly the tickers whose processing
failed, and together they count every processed ticker exactly once. -/
theorem batch_tally_complete (provider : TSym → Option RawFrame) (tickers : List TSym) :
    (runMain provider tickers).1
        = (tickers.filter (fun s => (processTicker provider s).1)).length ∧
    (runMain provider tickers).2
        = tickers.filter (fun s => !(processTicker provider s).1) ∧
    (runMain provider tickers).1 + (runMain provider tickers).2.length = tickers.length := by
  unfold runMain
  rw [runMain_go]
  refine ⟨by simp, by simp, ?_⟩
  simp only [List.nil_append, Nat.zero_add]
  exact length_filter_split _ tickers

/-- Claim C10: `tsx_dash_fallback` is one-shot: it returns none unless the
symbol ends in ".TO" with a dot in the base; when it returns an alternate
`a`, then `a` differs from the input, still ends in ".TO", and applying
the fallback to `a` returns none (every dot of the base was replaced). -/
theorem tsx_fallback_one_shot (s : TSym) :
    (¬ (s.drop (s.length - 3) = dotTO ∧ ('.') ∈ s.take (s.length - 3)) →
        tsx_dash_fallback s = none) ∧
    (∀ a, tsx_dash_fallback s = some a →
        a ≠ s ∧ a.drop (a.length - 3) = dotTO ∧ tsx_dash_fallback a = none) := by
  constructor
  · intro h
    unfold tsx_dash_fallback
    by_cases hA : s.drop (s.length - 3) = dotTO
    · rw [if_neg (not_not.mpr hA)]
      have hB : ¬ ('.') ∈ s.take (s.length - 3) := fun hB => h ⟨hA, hB⟩
      rw [if_pos hB]
    · rw [if_pos hA]
  · intro a ha
    unfold tsx_dash_fallback at ha
    by_cases hA : s.drop (s.length - 3) = dotTO
    · rw [if_neg (not_not.mpr hA)] at ha
      by_cases hB : ('.') ∈ s.take (s.length - 3)
      · rw [if_neg (not_not.mpr hB)] at ha
        by_cases hC :
            (s.take (s.length - 3)).map (fun c => if c = '.' then '-' else c) ++ dotTO ≠ s
        · rw [if_pos hC] at ha
          have haeq : a =
              (s.take (s.length - 3)).map (fun c => if c = '.' then '-' else c) ++ dotTO :=
            (Option.some_inj.mp ha).symm
          have hlen : a.length - 3 =
              ((s.take (s.length - 3)).map (fun c => if c = '.' then '-' else c)).length := by
            rw [haeq, List.length_append]
            simp [dotTO]
          have hdropa : a.drop (a.length - 3) = dotTO := by
            rw [haeq] at hlen ⊢
            rw [hlen, List.drop_left]
          have htakea : a.take (a.length - 3) =
              (s.take (s.length - 3)).map (fun c => if c = '.' then '-' else c) := by
            rw [haeq] at hlen ⊢
            rw [hlen, List.take_left]
          have hnodot : ¬ ('.') ∈ a.take (a.length - 3) := by
            rw [htakea]
            intro hmem
            obtain ⟨c, _, hfc⟩ := List.mem_map.mp hmem
            by_cases hcd : c = '.'
            · rw [if_pos hcd] at hfc
              exact absurd hfc (by decide)
            · rw [if_neg hcd] at hfc
              exact hcd hfc
          refine ⟨haeq ▸ hC, hdropa, ?_⟩
          unfold tsx_dash_fallback
          rw [if_neg (not_not.mpr hdropa), if_pos hnodot]
        · rw [if_neg hC] at ha
          exact absurd ha (by simp)
      · rw [if_pos hB] at ha
        exact absurd ha (by simp)
    · rw [if_pos hA] at ha
      exact absurd ha (by simp)

/-- Witness for C10: the fallback maps CCL.B.TO to CCL-B.TO, which differs
from the input, still ends in ".TO", and admits no second fallback. -/
theorem tsx_fallback_one_shot_witness :
    tsx_dash_fallback ['C', 'C', 'L', '-', 'B', '.', 'T', 'O'] = none ∧
    ['C', 'C', 'L', '-', 'B', '.', 'T', 'O'] ≠ ['C', 'C', 'L', '.', 'B', '.', 'T', 'O'] := by
  have h := (tsx_fallback_one_shot ['C', 'C', 'L', '.', 'B', '.', 'T', 'O']).2
      ['C', 'C', 'L', '-', 'B', '.', 'T', 'O'] (by decide)
  exact ⟨h.2.2, h.1⟩

/-- Counterexample to C2 as stated: a weight set with all five required
keys summing exactly to 0.99 is claimed accepted, but the code rejects it
for sum-out-of-range (the comparison is strict: s <= 0.99 rejects). -/
theorem ranking_config_boundary_counterexample :
    update_ranking_config
        [("trend", 59 / 100), ("rsi", 1 / 10), ("value", 1 / 10), ("size", 1 / 10),
         ("yield", 1 / 10)]
      = ConfigResult.rejectedSum (99 / 100) := by
  norm_num [update_ranking_config]

/-- Claim C2 as amended: the update validation rejects an empty weights
mapping, rejects a sum s with s ≤ 0.99 or s ≥ 1.01 (so the boundary sums
0.99 and 1.01 are rejected, not accepted), rejects a missing required key,
and accepts exactly when the mapping is nonempty, 0.99 < s < 1.01, and all
required keys are present; the three §8 examples behave as the spec says. -/
theorem ranking_config_validation :
    (∀ w : List (String × ℚ),
        update_ranking_config w = ConfigResult.accepted ↔
          (w ≠ [] ∧ 99 / 100 < (w.map Prod.snd).sum ∧ (w.map Prod.snd).sum < 101 / 100 ∧
           ∀ k ∈ requiredFactorKeys, k ∈ w.map Prod.fst)) ∧
    update_ranking_config [] = ConfigResult.rejectedEmpty ∧
    update_ranking_config [("trend", 2 / 5), ("rsi", 3 / 10), ("value", 1 / 5), ("size", 1 / 10)]
        = ConfigResult.rejectedMissingKeys ["yield"] ∧
    update_ranking_config
        [("trend", 1 / 5), ("rsi", 1 / 5), ("value", 1 / 5), ("size", 1 / 5), ("yield", 1 / 10)]
        = ConfigResult.rejectedSum (9 / 10) ∧
    update_ranking_config
        [("trend", 7 / 20), ("rsi", 1 / 4), ("value", 1 / 5), ("size", 1 / 10), ("yield", 1 / 10)]
        = ConfigResult.accepted := by
  refine ⟨?_, by norm_num [update_ranking_config],
    by norm_num [update_ranking_config, requiredFactorKeys]; decide,
    by norm_num [update_ranking_config],
    by norm_num [update_ranking_config, requiredFactorKeys]⟩
  intro w
  unfold update_ranking_config
  constructor
  · intro h
    by_cases he : w.isEmpty
    · rw [if_pos he] at h
      exact absurd h (by simp)
    · rw [if_neg he] at h
      by_cases hs : (w.map Prod.snd).sum ≤ 99 / 100 ∨ 101 / 100 ≤ (w.map Prod.snd).sum
      · rw [if_pos hs] at h
        exact absurd h (by simp)
      · rw [if_neg hs] at h
        push_neg at hs
        by_cases hm : requiredFactorKeys.filter (fun k => ¬ k ∈ w.map Prod.fst) ≠ []
        · rw [if_pos hm] at h
          exact absurd h (by simp)
        · push_neg at hm
          refine ⟨by simpa [List.isEmpty_iff] using he, hs.1, hs.2, ?_⟩
          intro k hk
          by_contra hkn
          have hmem : k ∈ requiredFactorKeys.filter (fun k => ¬ k ∈ w.map Prod.fst) := by
            rw [List.mem_filter]
            exact ⟨hk, by simpa using hkn⟩
          rw [hm] at hmem
          exact absurd hmem (by simp)
  · rintro ⟨hne, h1, h2, hk⟩
    rw [if_neg (by simpa [List.isEmpty_iff] using hne)]
    rw [if_neg (by push_neg; exact ⟨by linarith, by linarith⟩)]
    have hfil : requiredFactorKeys.filter (fun k => ¬ k ∈ w.map Prod.fst) = [] := by
      rw [List.filter_eq_nil_iff]
      intro a ha
      simp [hk a ha]
    rw [if_neg (not_not.mpr hfil)]

/-- Witness for C2: the acceptance characterization applied at a concrete
five-key weight set summing to 1. -/
theorem ranking_config_validation_witness :
    update_ranking_config
        [("trend", 3 / 10), ("rsi", 3 / 10), ("value", 1 / 5), ("size", 1 / 10), ("yield", 1 / 10)]
      = ConfigResult.accepted := by
  refine (ranking_config_validation.1 _).mpr ⟨by simp, by norm_num, by norm_num, ?_⟩
  intro k hk
  fin_cases hk <;> simp [requiredFactorKeys]

/-- Counterexample to C3 as stated: on an empty upstream response the
fetcher does not return an empty sequence — `_coerce_download_to_ohlcv`
raises (returns an error), and the ticker is counted in the failure tally
of the batch run. -/
theorem empty_response_counterexample :
    coerce_download_to_ohlcv (some (RawFrame.mk true true []))
        = Except.error FetchErr.emptyDataFrame ∧
    runMain (fun _ => some (RawFrame.mk true true [])) [['A', 'B', 'C']]
        = (0, [['A', 'B', 'C']]) := by
  constructor
  · rfl
  · decide

/-- Claim C3 as amended: an empty upstream response makes
`_coerce_download_to_ohlcv` raise the "Empty download dataframe" error;
when the (primary) download fails that way and no alternate symbol
applies, the ticker is processed as failed — it is counted in the failure
tally, with no store writes — and the batch continues with the remaining
tickers unchanged. -/
theorem empty_response_amended (provider : TSym → Option RawFrame) (s : TSym)
    (rest : List TSym)
    (h1 : download_one_symbol provider s = Except.error FetchErr.emptyDataFrame)
    (h2 : tsx_dash_fallback s = none) :
    (∀ f : RawFrame, f.rows = [] →
        coerce_download_to_ohlcv (some f) = Except.error FetchErr.emptyDataFrame) ∧
    processTicker provider s = (false, []) ∧
    runMain provider (s :: rest) = ((runMain provider rest).1, s :: (runMain provider rest).2) := by
  have hp : processTicker provider s = (false, []) := by
    simp [processTicker, h1, h2]
  refine ⟨?_, hp, ?_⟩
  · intro f hf
    simp [coerce_download_to_ohlcv, hf]
  · unfold runMain
    rw [List.foldl_cons, hp]
    simp only [List.nil_append, Bool.false_eq_true, if_false]
    rw [runMain_go provider rest 0 [s], runMain_go provider rest 0 []]
    simp

/-- Witness for C3 amended: a provider that always returns no data, a
symbol with no alternate, and an empty remaining batch. -/
theorem empty_response_amended_witness :
    runMain (fun _ => (none : Option RawFrame)) [['A', 'B', 'C']] = (0, [['A', 'B', 'C']]) := by
  have h := empty_response_amended (fun _ => (none : Option RawFrame)) ['A', 'B', 'C'] []
      (by rfl) (by decide)
  simpa [runMain] using h.2.2

/-- Claim C6: per ticker and per run, at most one ticker_map write occurs;
when the primary download fails, an alternate exists, and the alternate
download succeeds, the run commits exactly the mapping write (with the
alternate symbol), followed by the price write and the metrics write, and
the ticker counts as a success; when the primary fails and there is no
alternate, or the alternate also fails, nothing is written, the mapping is
untouched, and the ticker is counted failed. -/
theorem symbol_fallback_mapping (provider : TSym → Option RawFrame) (yf_sym : TSym) :
    ((processTicker provider yf_sym).2.filter Ev.isMapWrite).length ≤ 1 ∧
    (∀ e alt df,
        download_one_symbol provider yf_sym = Except.error e →
        tsx_dash_fallback yf_sym = some alt →
        download_one_symbol provider alt = Except.ok df →
        processTicker provider yf_sym
            = (true, [Ev.mapWrite alt, Ev.priceUpsert df, Ev.metricsUpsert]) ∧
        runMain provider [yf_sym] = (1, [])) ∧
    (∀ e, download_one_symbol provider yf_sym = Except.error e →
        tsx_dash_fallback yf_sym = none →
        processTicker provider yf_sym = (false, []) ∧
        runMain provider [yf_sym] = (0, [yf_sym])) ∧
    (∀ e alt e2,
        download_one_symbol provider yf_sym = Except.error e →
        tsx_dash_fallback yf_sym = some alt →
        download_one_symbol provider alt = Except.error e2 →
        processTicker provider yf_sym = (false, []) ∧
        runMain provider [yf_sym] = (0, [yf_sym])) := by
  refine ⟨?_, ?_, ?_, ?_⟩
  · rcases hdl : download_one_symbol provider yf_sym with e | df
    · rcases hfb : tsx_dash_fallback yf_sym with _ | alt
      · simp [processTicker, hdl, hfb]
      · rcases hdl2 : download_one_symbol provider alt with e2 | df2
        · simp [processTicker, hdl, hfb, hdl2]
        · simp [processTicker, hdl, hfb, hdl2, Ev.isMapWrite]
    · simp [processTicker, hdl, Ev.isMapWrite]
  · intro e alt df h1 h2 h3
    have hp : processTicker provider yf_sym
        = (true, [Ev.mapWrite alt, Ev.priceUpsert df, Ev.metricsUpsert]) := by
      simp [processTicker, h1, h2, h3]
    exact ⟨hp, by simp [runMain, hp]⟩
  · intro e h1 h2
    have hp : processTicker provider yf_sym = (false, []) := by
      simp [processTicker, h1, h2]
    exact ⟨hp, by simp [runMain, hp]⟩
  · intro e alt e2 h1 h2 h3
    have hp : processTicker provider yf_sym = (false, []) := by
      simp [processTicker, h1, h2, h3]
    exact ⟨hp, by simp [runMain, hp]⟩

/-- Witness for C6: a provider that knows only the dash alternate of
CCL.B.TO exercises the fallback path: one mapping write, then the price
write, and a success. -/
theorem symbol_fallback_mapping_witness :
    processTicker
        (fun s => if s = ['C', 'C', 'L', '-', 'B', '.', 'T', 'O'] then
            some (RawFrame.mk true true [(some (10 : ℚ), some (100 : ℚ))]) else none)
        ['C', 'C', 'L', '.', 'B', '.', 'T', 'O']
      = (true, [Ev.mapWrite ['C', 'C', 'L', '-', 'B', '.', 'T', 'O'],
                Ev.priceUpsert [((10 : ℚ), some (100 : ℚ))], Ev.metricsUpsert]) := by
  exact ((symbol_fallback_mapping _ _).2.1 FetchErr.emptyDataFrame
      ['C', 'C', 'L', '-', 'B', '.', 'T', 'O'] [((10 : ℚ), some (100 : ℚ))]
      (by rfl) (by decide) (by rfl)).1

theorem zipWith_map_same {α β γ δ : Type} (f : β → γ → δ) (g : α → β) (h : α → γ)
    (l : List α) :
    List.zipWith f (l.map g) (l.map h) = l.map (fun x => f (g x) (h x)) := by
  induction l with
  | nil => rfl
  | cons a t ih => simp [ih]

theorem seriesDiff_map_gain (c : List ℚ) :
    (seriesDiff c).map gainOf
      = (List.range c.length).map (fun i => FVal.fin (gainAt c i)) := by
  unfold seriesDiff
  rw [List.map_map]
  apply List.map_congr_left
  intro i _
  simp only [Function.comp_apply]
  by_cases h : i = 0
  · subst h
    simp [gainOf, gainAt]
  · rw [if_neg h]
    simp only [gainOf, gainAt, if_neg h, deltaAt]
    congr 1
    rcases lt_or_le 0 (c.getD i 0 - c.getD (i - 1) 0) with hd | hd
    · rw [if_pos hd, max_eq_left hd.le]
    · rw [if_neg (not_lt.mpr hd), max_eq_right hd]

theorem seriesDiff_map_loss (c : List ℚ) :
    (seriesDiff c).map lossOf
      = (List.range c.length).map (fun i => FVal.fin (lossAt c i)) := by
  unfold seriesDiff
  rw [List.map_map]
  apply List.map_congr_left
  intro i _
  simp only [Function.comp_apply]
  by_cases h : i = 0
  · subst h
    simp [lossOf, lossAt]
  · rw [if_neg h]
    simp only [lossOf, lossAt, if_neg h, deltaAt]
    congr 1
    rcases lt_or_le (c.getD i 0 - c.getD (i - 1) 0) 0 with hd | hd
    · rw [if_pos hd, max_eq_left (by linarith)]
    · rw [if_neg (not_lt.mpr hd), max_eq_right (by linarith)]

theorem rollingMeanF_fin (w : Nat) (g : Nat → ℚ) (n : Nat) :
    rollingMeanF w ((List.range n).map (fun j => FVal.fin (g j))) =
      (List.range n).map (fun i =>
        if w ≤ i + 1 then
          FVal.fin ((((List.range (i + 1)).drop (i + 1 - w)).map g).sum / (w : ℚ))
        else FVal.nan) := by
  unfold rollingMeanF
  rw [List.length_map, List.length_range]
  apply List.map_congr_left
  intro i hi
  rw [List.mem_range] at hi
  by_cases hw : w ≤ i + 1
  · rw [if_pos hw, if_pos hw]
    rw [show (((List.range n).map (fun j => FVal.fin (g j))).take (i + 1)).drop (i + 1 - w)
        = ((List.range (i + 1)).drop (i + 1 - w)).map (fun j => FVal.fin (g j)) from by
      rw [← List.map_take, List.take_range, Nat.min_eq_left (by omega), ← List.map_drop]]
    have hall : (((List.range (i + 1)).drop (i + 1 - w)).map (fun j => FVal.fin (g j))).all
        FVal.isFin = true := by
      rw [List.all_eq_true]
      intro x hx
      obtain ⟨j, _, rfl⟩ := List.mem_map.mp hx
      rfl
    simp only [hall, if_true]
    rw [List.map_map, show FVal.finPart ∘ (fun j => FVal.fin (g j)) = g from rfl]
  · rw [if_neg hw, if_neg hw]

theorem compute_rsi_eq (c : List ℚ) (p : Nat) :
    compute_rsi c p = (List.range c.length).map (fun i =>
      if p ≤ i + 1 then
        FVal.sub (FVal.fin 100) (FVal.div (FVal.fin 100) (FVal.add (FVal.fin 1)
          (FVal.div (FVal.fin (avgGain p c i)) (FVal.fin (avgLoss p c i)))))
      else FVal.nan) := by
  unfold compute_rsi
  show (List.zipWith FVal.div (rollingMeanF p ((seriesDiff c).map gainOf))
      (rollingMeanF p ((seriesDiff c).map lossOf))).map
      (fun r => FVal.sub (FVal.fin 100) (FVal.div (FVal.fin 100) (FVal.add (FVal.fin 1) r))) = _
  rw [seriesDiff_map_gain, seriesDiff_map_loss, rollingMeanF_fin, rollingMeanF_fin,
    zipWith_map_same, List.map_map]
  apply List.map_congr_left
  intro i _
  simp only [Function.comp_apply]
  by_cases hp : p ≤ i + 1
  · rw [if_pos hp, if_pos hp, if_pos hp]
    rfl
  · rw [if_neg hp, if_neg hp, if_neg hp]
    rfl

theorem avgGain_nonneg (p : Nat) (c : List ℚ) (i : Nat) : 0 ≤ avgGain p c i := by
  unfold avgGain
  apply div_nonneg
  · apply List.sum_nonneg
    intro x hx
    obtain ⟨j, _, rfl⟩ := List.mem_map.mp hx
    unfold gainAt
    split_ifs
    · exact le_refl 0
    · exact le_max_right _ _
  · exact Nat.cast_nonneg p

theorem avgLoss_nonneg (p : Nat) (c : List ℚ) (i : Nat) : 0 ≤ avgLoss p c i := by
  unfold avgLoss
  apply div_nonneg
  · apply List.sum_nonneg
    intro x hx
    obtain ⟨j, _, rfl⟩ := List.mem_map.mp hx
    unfold lossAt
    split_ifs
    · exact le_refl 0
    · exact le_max_right _ _
  · exact Nat.cast_nonneg p

/-- Claim C1 as amended: `compute_rsi` with period 14 is NaN (null) for
the first 13 positions only; it becomes non-null already at the 14th
price — where just 13 price diffs exist — because the undefined first
diff is replaced by a zero gain and loss that count toward the window.
From then on the value is: NaN when the 14-period average gain and loss
are both 0 (flat window), exactly 100 when the average loss is 0 and the
average gain is positive (via IEEE infinity arithmetic, not an explicit
branch), and 100 - 100/(1 + avg_gain/avg_loss) otherwise, where the
averages are 14-period simple rolling means of max(Δclose,0) and
max(-Δclose,0) with the position-0 diff taken as 0. -/
theorem rsi14_amended (c : List ℚ) (i : Nat) (hi : i < c.length) :
    (compute_rsi c 14)[i]? = some (
      if i + 1 < 14 then FVal.nan
      else if avgLoss 14 c i = 0 then
        (if avgGain 14 c i = 0 then FVal.nan else FVal.fin 100)
      else FVal.fin (100 - 100 / (1 + avgGain 14 c i / avgLoss 14 c i))) := by
  rw [compute_rsi_eq, getElem?_range_map _ _ _ hi]
  congr 1
  by_cases h14 : 14 ≤ i + 1
  · rw [if_pos h14, if_neg (by omega : ¬ i + 1 < 14)]
    have hG := avgGain_nonneg 14 c i
    have hL := avgLoss_nonneg 14 c i
    by_cases hL0 : avgLoss 14 c i = 0
    · rw [if_pos hL0]
      by_cases hG0 : avgGain 14 c i = 0
      · rw [if_pos hG0]
        simp [FVal.div, FVal.add, FVal.sub, hL0, hG0]
      · rw [if_neg hG0]
        have hGpos : 0 < avgGain 14 c i := lt_of_le_of_ne hG (Ne.symm hG0)
        simp [FVal.div, FVal.add, FVal.sub, hL0, hG0, hGpos]
    · rw [if_neg hL0]
      have hq : 0 ≤ avgGain 14 c i / avgLoss 14 c i := div_nonneg hG hL
      have hden : (1 : ℚ) + avgGain 14 c i / avgLoss 14 c i ≠ 0 := by
        intro h0
        linarith
      simp [FVal.div, FVal.add, FVal.sub, hL0, hden]
  · rw [if_neg h14, if_pos (by omega : i + 1 < 14)]

set_option maxHeartbeats 1000000

/-- Witness for C1 amended: on a strictly increasing 20-day close series
the average loss is 0 from position 13 on, and the RSI is exactly 100 at
position 15. -/
theorem rsi14_amended_witness :
    (compute_rsi [1, 2, 3, 4, 5, 6, 7, 8, 9, 10, 11, 12, 13, 14, 15, 16, 17, 18, 19, 20]
        14)[15]? = some (FVal.fin 100) := by
  have h := rsi14_amended
      [1, 2, 3, 4, 5, 6, 7, 8, 9, 10, 11, 12, 13, 14, 15, 16, 17, 18, 19, 20] 15
      (by norm_num)
  rw [h]
  norm_num [avgGain, avgLoss, gainAt, lossAt, deltaAt, List.range_succ]

/-- Counterexample to C1 as stated: on a strictly increasing series of 14
closes only 13 price diffs exist, yet the RSI at the last position is
already non-null (it is exactly 100), contradicting "null until 14
periods of price diffs exist"; and on a flat 28-day series the average
loss is 0 at position 27 yet the RSI is NaN from 0/0, not 100. -/
theorem rsi14_counterexample :
    (compute_rsi [1, 2, 3, 4, 5, 6, 7, 8, 9, 10, 11, 12, 13, 14] 14)[13]?
        = some (FVal.fin 100) ∧
    (compute_rsi (List.replicate 28 (5 : ℚ)) 14)[27]? = some FVal.nan := by
  constructor
  · norm_num [compute_rsi, seriesDiff, rollingMeanF, List.range_succ, gainOf, lossOf,
      FVal.add, FVal.sub, FVal.div, FVal.isFin, FVal.finPart]
  · norm_num [compute_rsi, seriesDiff, rollingMeanF, List.range_succ, gainOf, lossOf,
      FVal.add, FVal.sub, FVal.div, FVal.isFin, FVal.finPart, List.replicate]

theorem scoreRel_total (a b : FactorScores × Option ℚ) :
    scoreDescNullsLast a.2 b.2 = true ∨ scoreDescNullsLast b.2 a.2 = true := by
  rcases a with ⟨ra, sa⟩
  rcases b with ⟨rb, sb⟩
  rcases sa with _ | x <;> rcases sb with _ | y <;> simp [scoreDescNullsLast]
  exact le_total y x

theorem scoreRel_trans (a b c' : FactorScores × Option ℚ)
    (h1 : scoreDescNullsLast a.2 b.2 = true) (h2 : scoreDescNullsLast b.2 c'.2 = true) :
    scoreDescNullsLast a.2 c'.2 = true := by
  rcases a with ⟨ra, sa⟩
  rcases b with ⟨rb, sb⟩
  rcases c' with ⟨rc, sc⟩
  rcases sa with _ | x <;> rcases sb with _ | y <;> rcases sc with _ | z <;>
    simp_all [scoreDescNullsLast]
  exact le_trans h2 h1

/-- Claim C4 as amended: the rankings query returns at most `lim` rows;
every returned row carries the composite score
round4(Σ weight_f × subscore_f) of its own sub-scores under the given
weights (NULL when a sub-score is NULL) and stems from the input view;
and the returned page is ordered descending by composite with nulls
sorted last: whenever a later row has a score, every earlier row has a
greater-or-equal score. -/
theorem rankings_query_spec (w : RankWeights) (rows : List FactorScores) (lim : Nat) :
    (rankings_query w rows lim).length ≤ lim ∧
    (∀ p ∈ rankings_query w rows lim, p.2 = rowScore w p.1 ∧ p.1 ∈ rows) ∧
    (rankings_query w rows lim).Pairwise
      (fun a b => b.2 = none ∨ ∃ x y, b.2 = some x ∧ a.2 = some y ∧ x ≤ y) := by
  haveI htot : IsTotal (FactorScores × Option ℚ)
      (fun a b => scoreDescNullsLast a.2 b.2 = true) := ⟨scoreRel_total⟩
  haveI htrans : IsTrans (FactorScores × Option ℚ)
      (fun a b => scoreDescNullsLast a.2 b.2 = true) := ⟨scoreRel_trans⟩
  refine ⟨?_, ?_, ?_⟩
  · show ((List.insertionSort _ _).take lim).length ≤ lim
    rw [List.length_take]
    exact min_le_left _ _
  · intro p hp
    have hp2 := List.mem_of_mem_take hp
    have hp3 : p ∈ rows.map (fun r => (r, rowScore w r)) :=
      (List.perm_insertionSort _ _).mem_iff.mp hp2
    obtain ⟨r, hr, rfl⟩ := List.mem_map.mp hp3
    exact ⟨rfl, hr⟩
  · apply List.Pairwise.sublist (List.take_sublist _ _)
    have hs := List.sorted_insertionSort
      (fun a b : FactorScores × Option ℚ => scoreDescNullsLast a.2 b.2 = true)
      (rows.map (fun r => (r, rowScore w r)))
    apply List.Pairwise.imp ?_ hs
    intro a b hab
    rcases hb : b.2 with _ | x
    · exact Or.inl rfl
    · rcases ha : a.2 with _ | y
      · rw [ha, hb] at hab
        simp [scoreDescNullsLast] at hab
      · rw [ha, hb] at hab
        simp only [scoreDescNullsLast, decide_eq_true_eq] at hab
        exact Or.inr ⟨x, y, rfl, rfl, hab⟩

/-- Witness for C4: the spec applied at one concrete row with equal
weights; the returned page has at most one row, and the row in the page
carries its own recomputed composite. -/
theorem rankings_query_spec_witness :
    (rankings_query ⟨1/5, 1/5, 1/5, 1/5, 1/5⟩
        [⟨some 1, some 1, some 1, some 1, some 1⟩] 1).length ≤ 1 ∧
    ((⟨⟨some 1, some 1, some 1, some 1, some 1⟩, some 1⟩ : FactorScores × Option ℚ).2
        = rowScore ⟨1/5, 1/5, 1/5, 1/5, 1/5⟩ ⟨some 1, some 1, some 1, some 1, some 1⟩) := by
  have h := rankings_query_spec (⟨1/5, 1/5, 1/5, 1/5, 1/5⟩ : RankWeights)
      [⟨some 1, some 1, some 1, some 1, some 1⟩] 1
  refine ⟨h.1, (h.2.1 ⟨⟨some 1, some 1, some 1, some 1, some 1⟩, some 1⟩ ?_).1⟩
  norm_num [rankings_query, List.insertionSort, List.orderedInsert, rowScore, pgRound4,
    roundAwayFromZero]

/-- Counterexample to C4 as stated: with sub-scores
(trend, rsi, value, size, yield) = (0.8, 0.5, 0.6, 0.4, 0.2) and weights
(0.35, 0.25, 0.2, 0.1, 0.1) the composite is
0.35*0.8 + 0.25*0.5 + 0.2*0.6 + 0.1*0.4 + 0.1*0.2 = 0.585 = 117/200,
not the 0.595 the claim asserts. -/
theorem composite_score_counterexample :
    rowScore ⟨7/20, 1/4, 1/5, 1/10, 1/10⟩
        ⟨some (4/5), some (1/2), some (3/5), some (2/5), some (1/5)⟩ = some (117/200) ∧
    (117/200 : ℚ) ≠ 595/1000 := by
  constructor
  · norm_num [rowScore, pgRound4, roundAwayFromZero]
  · norm_num
